import Mathlib

/-!
Verification of the production-calendar generator (`src/index.ts`).

The development shallowly embeds the program's core pipeline:

* the date arithmetic performed through JavaScript `Date` values
  (parsing of `Y-M-D` keys to UTC-midnight timestamps, millisecond
  arithmetic, and `toISOString` conversion back to a calendar date);
* `makeGroups`, which sorts the annotated dates and merges runs of
  adjacent days sharing a message into ranges;
* `formatDate`, the `text` template-literal helper, and `createEvent`,
  which serialize one range into an iCalendar `VEVENT` block;
* the document assembly in `main` and the CLI year parsing in
  `parseCliYear`.

JavaScript `Date` stores milliseconds since the Unix epoch and converts
to and from Gregorian calendar fields with the standard civil-calendar
algorithms; `daysFromCivil` and `civilFromDays` below are that
conversion, counting days from 0000-03-01 of the proleptic Gregorian
calendar.
-/

set_option maxRecDepth 8000

/-- A calendar date: the parsed form of a `Y-M-D` map key. -/
@[ext]
structure DateKey where
  y : Nat
  m : Nat
  d : Nat
deriving DecidableEq, Repr

/-- Gregorian leap-year test, as the JavaScript date runtime implements it. -/
def isLeap (y : Nat) : Bool :=
  (y % 4 == 0 && y % 100 != 0) || (y % 400 == 0)

theorem isLeap_iff (y : Nat) :
    isLeap y = true ↔ ((y % 4 = 0 ∧ y % 100 ≠ 0) ∨ y % 400 = 0) := by
  simp [isLeap]

/-- Number of days in a month of a given year. -/
def daysInMonth (y m : Nat) : Nat :=
  if m = 2 then (if isLeap y then 29 else 28)
  else if m = 4 ∨ m = 6 ∨ m = 9 ∨ m = 11 then 30 else 31

/-- A valid Gregorian date whose year renders with at most four digits
(every key this program builds carries a four-digit year). -/
def validDate (k : DateKey) : Prop :=
  1 ≤ k.y ∧ k.y ≤ 9999 ∧ 1 ≤ k.m ∧ k.m ≤ 12 ∧ 1 ≤ k.d ∧ k.d ≤ daysInMonth k.y k.m

instance validDate.dec : DecidablePred validDate := fun k => by
  unfold validDate; infer_instance

/-- Days since 0000-03-01 (proleptic Gregorian), for years `1 ≤ y`.
This is the civil-from-date direction of the conversion JavaScript
`Date` performs when parsing an ISO `YYYY-MM-DD` string. -/
def daysFromCivil (k : DateKey) : Nat :=
  let y := if k.m ≤ 2 then k.y - 1 else k.y
  let era := y / 400
  let yoe := y % 400
  let mp := (k.m + 9) % 12
  let doy := (153 * mp + 2) / 5 + k.d - 1
  let doe := yoe * 365 + yoe / 4 - yoe / 100 + doy
  era * 146097 + doe

/-- Day count of the Unix epoch 1970-01-01 in the `daysFromCivil` scale. -/
def epochDays : Nat := 719468

/-- Calendar date of a day count, the date-from-days direction of the
conversion JavaScript `Date.prototype.toISOString` performs. -/
def civilFromDays (g : Nat) : DateKey :=
  let era := g / 146097
  let doe := g % 146097
  let yoe := (doe - doe / 1460 + doe / 36524 - doe / 146096) / 365
  let y := yoe + era * 400
  let doy := doe - (365 * yoe + yoe / 4 - yoe / 100)
  let mp := (5 * doy + 2) / 153
  let d := doy - (153 * mp + 2) / 5 + 1
  let m := if mp < 10 then mp + 3 else mp - 9
  ⟨if m ≤ 2 then y + 1 else y, m, d⟩

/-- The timestamp (milliseconds since the Unix epoch) of a date key's
UTC midnight: the value of `new Date(key).getTime()` for a well-formed
key string. -/
def getTime (k : DateKey) : Int :=
  86400000 * ((daysFromCivil k : Int) - (epochDays : Int))

/-- Modelled from the spec: the date "plus exactly one calendar day"
(true calendar successor, crossing month and year boundaries). -/
def calendarSucc (k : DateKey) : DateKey :=
  if k.d < daysInMonth k.y k.m then ⟨k.y, k.m, k.d + 1⟩
  else if k.m < 12 then ⟨k.y, k.m + 1, 1⟩
  else ⟨k.y + 1, 1, 1⟩

/-! ### Correctness of the day-count conversion

`civilFromDays` recovers the year of era from the day of era through
Hinnant's correction formula.  We prove it by showing the correction
map is monotone and checking the 400 year-of-era endpoints by kernel
evaluation, then sandwiching.
-/

/-- Hinnant's year-of-era correction map. -/
def tCorr (doe : Nat) : Nat := doe - doe / 1460 + doe / 36524 - doe / 146096

/-- First day of era of a year of era. -/
def doeStart (yoe : Nat) : Nat := 365 * yoe + yoe / 4 - yoe / 100

/-- One exactly when the shifted year starting 03-01 of the given year
of era contains a leap day (its February belongs to the next civil
year). -/
def leapLen (yoe : Nat) : Nat :=
  if (yoe % 4 = 3 ∧ yoe % 100 ≠ 99) ∨ yoe = 399 then 1 else 0

theorem tCorr_le_succ (n : Nat) : tCorr n ≤ tCorr (n + 1) := by
  unfold tCorr
  omega

theorem tCorr_mono {a b : Nat} (h : a ≤ b) : tCorr a ≤ tCorr b := by
  induction b with
  | zero => simp_all
  | succ n ih =>
    rcases Nat.lt_or_ge a (n + 1) with h' | h'
    · exact Nat.le_trans (ih (Nat.lt_succ_iff.mp h')) (tCorr_le_succ n)
    · have : a = n + 1 := Nat.le_antisymm h h'
      simp [this]

/-- The 400 per-year-of-era endpoint checks, evaluated by the kernel. -/
def yoeEndpointsOK : Bool :=
  (List.range 400).all fun yoe =>
    decide (365 * yoe ≤ tCorr (doeStart yoe)) &&
    decide (tCorr (doeStart yoe + 364 + leapLen yoe) ≤ 365 * yoe + 364)

theorem yoeEndpointsOK_true : yoeEndpointsOK = true := by decide

theorem tCorr_sandwich (yoe doy : Nat) (h1 : yoe ≤ 399)
    (h2 : doy ≤ 364 + leapLen yoe) :
    tCorr (doeStart yoe + doy) / 365 = yoe := by
  have hall := yoeEndpointsOK_true
  unfold yoeEndpointsOK at hall
  rw [List.all_eq_true] at hall
  have hy := hall yoe (by simp [List.mem_range]; omega)
  simp only [Bool.and_eq_true, decide_eq_true_eq] at hy
  have lo : tCorr (doeStart yoe) ≤ tCorr (doeStart yoe + doy) :=
    tCorr_mono (Nat.le_add_right _ _)
  have hi : tCorr (doeStart yoe + doy) ≤ tCorr (doeStart yoe + 364 + leapLen yoe) :=
    tCorr_mono (by omega)
  omega

theorem daysInMonth_le (Y M : Nat) : daysInMonth Y M ≤ daysInMonth 2000 M := by
  unfold daysInMonth; split_ifs <;> simp_all [isLeap]

theorem daysInMonth_le31 (Y M : Nat) : daysInMonth Y M ≤ 31 := by
  unfold daysInMonth; split_ifs <;> omega

/-- Per-month decode checks for `civilFromDays`, evaluated by the kernel:
the month offset table inverts correctly for every in-range day. -/
def monthDecodeOK : Bool :=
  (List.range 13).all fun M =>
    (List.range 32).all fun D =>
      decide (1 ≤ M ∧ M ≤ 12 ∧ 1 ≤ D ∧ D ≤ daysInMonth 2000 M →
        ((5 * ((153 * ((M + 9) % 12) + 2) / 5 + D - 1) + 2) / 153 = (M + 9) % 12 ∧
         ((153 * ((M + 9) % 12) + 2) / 5 + D - 1 ≤ 364 ∨ (M = 2 ∧ D = 29))))

theorem monthDecodeOK_true : monthDecodeOK = true := by decide

theorem monthDecode (M D : Nat) (h1 : 1 ≤ M) (h2 : M ≤ 12) (hD1 : 1 ≤ D)
    (hD2 : D ≤ daysInMonth 2000 M) :
    (5 * ((153 * ((M + 9) % 12) + 2) / 5 + D - 1) + 2) / 153 = (M + 9) % 12 ∧
    ((153 * ((M + 9) % 12) + 2) / 5 + D - 1 ≤ 364 ∨ (M = 2 ∧ D = 29)) := by
  have hall := monthDecodeOK_true
  unfold monthDecodeOK at hall
  rw [List.all_eq_true] at hall
  have h := hall M (by simp [List.mem_range]; omega)
  rw [List.all_eq_true] at h
  have hb := daysInMonth_le31 2000 M
  have h' := h D (by simp [List.mem_range]; omega)
  rw [decide_eq_true_eq] at h'
  exact h' ⟨h1, h2, hD1, hD2⟩

theorem civilFromDays_eval (era yoe doy : Nat) (he : yoe ≤ 399)
    (hd : doy ≤ 364 + leapLen yoe) :
    civilFromDays (era * 146097 + (yoe * 365 + yoe / 4 - yoe / 100 + doy)) =
      (let mp := (5 * doy + 2) / 153
       let m := if mp < 10 then mp + 3 else mp - 9
       (⟨if m ≤ 2 then yoe + era * 400 + 1 else yoe + era * 400, m,
         doy - (153 * mp + 2) / 5 + 1⟩ : DateKey)) := by
  have hL : leapLen yoe ≤ 1 := by unfold leapLen; split <;> omega
  have hdiv : (era * 146097 + (yoe * 365 + yoe / 4 - yoe / 100 + doy)) / 146097 = era := by
    omega
  have hmod : (era * 146097 + (yoe * 365 + yoe / 4 - yoe / 100 + doy)) % 146097
      = doeStart yoe + doy := by
    unfold doeStart; omega
  have hmagic : ((era * 146097 + (yoe * 365 + yoe / 4 - yoe / 100 + doy)) % 146097
      - (era * 146097 + (yoe * 365 + yoe / 4 - yoe / 100 + doy)) % 146097 / 1460
      + (era * 146097 + (yoe * 365 + yoe / 4 - yoe / 100 + doy)) % 146097 / 36524
      - (era * 146097 + (yoe * 365 + yoe / 4 - yoe / 100 + doy)) % 146097 / 146096) / 365
      = yoe := by
    have h2 : tCorr ((era * 146097 + (yoe * 365 + yoe / 4 - yoe / 100 + doy)) % 146097) / 365
        = yoe := by
      rw [hmod]; exact tCorr_sandwich yoe doy he hd
    unfold tCorr at h2
    exact h2
  simp only [civilFromDays]
  rw [hmagic, hdiv]
  have hdoy2 : (era * 146097 + (yoe * 365 + yoe / 4 - yoe / 100 + doy)) % 146097
      - (365 * yoe + yoe / 4 - yoe / 100) = doy := by
    rw [hmod]; unfold doeStart; omega
  rw [hdoy2]

/-- The two civil-calendar conversions are mutually inverse on valid dates:
`toISOString` after parsing recovers the date exactly. -/
theorem civilFromDays_daysFromCivil (k : DateKey) (h : validDate k) :
    civilFromDays (daysFromCivil k) = k := by
  obtain ⟨Y, M, D⟩ := k
  obtain ⟨hY1, hY2, hM1, hM2, hD1, hD2⟩ := h
  simp only at hY1 hY2 hM1 hM2 hD1 hD2
  have hD2' : D ≤ daysInMonth 2000 M := le_trans hD2 (daysInMonth_le Y M)
  have hD31 : D ≤ 31 := le_trans hD2 (daysInMonth_le31 Y M)
  obtain ⟨hmp, hdoyb⟩ := monthDecode M D hM1 hM2 hD1 hD2'
  rcases le_or_lt M 2 with hMle | hMgt
  · -- months 1 and 2: the shifted year is Y - 1
    have hfeb : M = 2 ∧ D = 29 → Y % 4 = 0 ∧ (Y % 100 ≠ 0 ∨ Y % 400 = 0) := by
      rintro ⟨rfl, rfl⟩
      unfold daysInMonth at hD2
      rcases hLeap : isLeap Y with _ | _ <;> rw [hLeap] at hD2 <;> simp at hD2
      · rw [isLeap_iff] at hLeap; omega
    have hdoy : (153 * ((M + 9) % 12) + 2) / 5 + D - 1 ≤ 364 + leapLen ((Y - 1) % 400) := by
      unfold leapLen
      rcases hdoyb with h' | h'
      · split <;> omega
      · have := hfeb h'
        split <;> omega
    simp only [daysFromCivil, if_pos hMle]
    rw [civilFromDays_eval ((Y - 1) / 400) ((Y - 1) % 400) _ (by omega) hdoy]
    simp only []
    rw [hmp]
    clear hmp
    have hc1 : ¬ ((M + 9) % 12 < 10) := by omega
    have hc2 : (M + 9) % 12 - 9 ≤ 2 := by omega
    rw [if_neg hc1, if_pos hc2]
    simp only [DateKey.mk.injEq]
    refine ⟨by omega, by omega, by omega⟩
  · have hMle' : ¬ (M ≤ 2) := by omega
    have hdoy : (153 * ((M + 9) % 12) + 2) / 5 + D - 1 ≤ 364 + leapLen (Y % 400) := by
      unfold leapLen
      rcases hdoyb with h' | h'
      · split <;> omega
      · omega
    simp only [daysFromCivil, if_neg hMle']
    rw [civilFromDays_eval (Y / 400) (Y % 400) _ (by omega) hdoy]
    simp only []
    rw [hmp]
    clear hmp
    have hc1 : (M + 9) % 12 < 10 := by omega
    have hc2 : ¬ ((M + 9) % 12 + 3 ≤ 2) := by omega
    rw [if_pos hc1, if_neg hc2]
    simp only [DateKey.mk.injEq]
    refine ⟨by omega, by omega, by omega⟩

/-- Days from 0000-03-01 to 03-01 of the shifted year `t`. -/
def gShift (t : Nat) : Nat :=
  t / 400 * 146097 + t % 400 * 365 + t % 400 / 4 - t % 400 / 100

/-- Year-of-era step identities, evaluated by the kernel. -/
def rStepOK : Bool :=
  (List.range 400).all fun r =>
    decide (1 ≤ r →
      r / 4 - r / 100 = (r - 1) / 4 - (r - 1) / 100 + (if isLeap r = true then 1 else 0))

theorem rStepOK_true : rStepOK = true := by decide

theorem rStep (r : Nat) (h1 : r < 400) (h2 : 1 ≤ r) :
    r / 4 - r / 100 = (r - 1) / 4 - (r - 1) / 100 + (if isLeap r = true then 1 else 0) := by
  have hall := rStepOK_true
  unfold rStepOK at hall
  rw [List.all_eq_true] at hall
  have h := hall r (by simp [List.mem_range]; omega)
  rw [decide_eq_true_eq] at h
  exact h h2

/-- A shifted year spans 365 days, or 366 when it contains a leap day. -/
theorem gShift_step (y : Nat) (hy : 1 ≤ y) :
    gShift y = gShift (y - 1) + 365 + (if isLeap y = true then 1 else 0) := by
  have hiso : isLeap y = isLeap (y % 400) := by
    unfold isLeap
    have h4 : y % 4 = y % 400 % 4 := by omega
    have h100 : y % 100 = y % 400 % 100 := by omega
    have h400 : y % 400 % 400 = y % 400 := by omega
    rw [h4, h100, h400]
  rcases Nat.eq_zero_or_pos (y % 400) with hr | hr
  · have hq : 1 ≤ y / 400 := by omega
    have e1 : (y - 1) / 400 = y / 400 - 1 := by omega
    have e2 : (y - 1) % 400 = 399 := by omega
    have hL : isLeap y = true := by rw [isLeap_iff]; omega
    unfold gShift
    rw [e1, e2, hL, hr]
    simp only [if_pos]
    omega
  · have e1 : (y - 1) / 400 = y / 400 := by omega
    have e2 : (y - 1) % 400 = y % 400 - 1 := by omega
    have hrs := rStep (y % 400) (Nat.mod_lt _ (by norm_num)) hr
    unfold gShift
    rw [e1, e2, hiso]
    omega

theorem daysFromCivil_eq (Y M D : Nat) :
    daysFromCivil ⟨Y, M, D⟩ =
      gShift (if M ≤ 2 then Y - 1 else Y) + ((153 * ((M + 9) % 12) + 2) / 5 + D - 1) := by
  rcases le_or_lt M 2 with hMle | hMgt
  · simp only [daysFromCivil, gShift, if_pos hMle]
    omega
  · simp only [daysFromCivil, gShift, if_neg (by omega : ¬ M ≤ 2)]
    omega

/-- Stepping to the next calendar day advances the day count by one. -/
theorem daysFromCivil_calendarSucc (k : DateKey) (h : validDate k) :
    daysFromCivil (calendarSucc k) = daysFromCivil k + 1 := by
  obtain ⟨Y, M, D⟩ := k
  obtain ⟨hY1, hY2, hM1, hM2, hD1, hD2⟩ := h
  simp only at hY1 hY2 hM1 hM2 hD1 hD2
  unfold calendarSucc
  simp only []
  split_ifs with hlt hm12
  · rw [daysFromCivil_eq Y M (D + 1), daysFromCivil_eq Y M D]
    omega
  · simp only at hlt hm12
    have hD : D = daysInMonth Y M := by omega
    clear hlt hD2
    rw [daysFromCivil_eq Y (M + 1) 1, daysFromCivil_eq Y M D]
    interval_cases M
    · norm_num [daysInMonth] at hD
      norm_num [hD]
    · -- Feb 28/29 -> Mar 1: crosses the shifted-year boundary
      norm_num [daysInMonth] at hD
      norm_num
      rw [gShift_step Y hY1]
      rcases hleap : isLeap Y with _ | _ <;> simp [hleap] at hD ⊢ <;> omega
    · norm_num [daysInMonth] at hD; norm_num [hD]
    · norm_num [daysInMonth] at hD; norm_num [hD]
    · norm_num [daysInMonth] at hD; norm_num [hD]
    · norm_num [daysInMonth] at hD; norm_num [hD]
    · norm_num [daysInMonth] at hD; norm_num [hD]
    · norm_num [daysInMonth] at hD; norm_num [hD]
    · norm_num [daysInMonth] at hD; norm_num [hD]
    · norm_num [daysInMonth] at hD; norm_num [hD]
    · norm_num [daysInMonth] at hD; norm_num [hD]
  · simp only at hlt hm12
    have hM : M = 12 := by omega
    subst hM
    norm_num [daysInMonth] at hlt hD2
    have hD : D = 31 := by omega
    rw [daysFromCivil_eq (Y + 1) 1 1, daysFromCivil_eq Y 12 D]
    norm_num [hD, Nat.add_sub_cancel]

/-- `daysFromCivil` is injective on valid dates. -/
theorem daysFromCivil_injOn (j k : DateKey) (hj : validDate j) (hk : validDate k)
    (h : daysFromCivil j = daysFromCivil k) : j = k := by
  have := civilFromDays_daysFromCivil j hj
  have := civilFromDays_daysFromCivil k hk
  rw [← civilFromDays_daysFromCivil j hj, ← civilFromDays_daysFromCivil k hk, h]

/-! ### The annotation map and `makeGroups` -/

/-- Per-day annotation produced by the scraper (`parseData`): display
message plus the day-off / shortened-day class flags. -/
structure Annotation where
  message : String
  holyday : Bool
  shortened : Bool
deriving DecidableEq, Repr

/-- The day-off list: a JavaScript `Map` from date keys to annotations,
embedded as an association list whose keys are unique. -/
abbrev AnnotationMap := List (DateKey × Annotation)

/-- Well-formedness of the embedded map: keys are valid parsed dates and
are unique (`Map` semantics). -/
def wellFormed (m : AnnotationMap) : Prop :=
  (∀ p ∈ m, validDate p.1) ∧ (m.map Prod.fst).Nodup

/-- One date range produced by `makeGroups` (the spec's `DateRange`).
`stop` is the source's `end` field (a Lean keyword); the range is
inclusive. -/
structure DateRange where
  start : DateKey
  stop : DateKey
  message : Option String
deriving DecidableEq, Repr

instance dateLe.dec : DecidableRel (fun a b : DateKey => getTime a ≤ getTime b) :=
  fun a b => Int.decLe _ _

/-- `[...holydayOffList.keys()].sort((a, b) => ta - tb)`: the keys in
ascending timestamp order.  JavaScript `sort` is a stable comparison
sort; any stable sort is a faithful model, and on distinct timestamps
the result is the unique sorted permutation.  We use insertion sort,
which the kernel can evaluate. -/
def sortedDates (m : AnnotationMap) : List DateKey :=
  (m.map Prod.fst).insertionSort (fun a b => getTime a ≤ getTime b)

/-- One step of the reducer inside `makeGroups`.  The accumulator keeps
the most recent group first (the source pushes to the array's end and
updates its last element; we cons at the head and reverse at the end).
The first conjunct is the truthiness test `prevDateEnd && ...`: a
timestamp of `0` (the Unix epoch) is falsy in JavaScript. -/
def mergeStep (m : AnnotationMap) (acc : List DateRange) (el : DateKey) : List DateRange :=
  match acc with
  | [] => [⟨el, el, (m.lookup el).map Annotation.message⟩]
  | last :: rest =>
    if getTime last.stop ≠ 0 ∧ (m.lookup el).map Annotation.message = last.message ∧
        getTime el - getTime last.stop = 86400000 then
      ⟨last.start, el, last.message⟩ :: rest
    else
      ⟨el, el, (m.lookup el).map Annotation.message⟩ :: last :: rest

/-- `makeGroups`: sort the keys chronologically, then fold, merging a
key into the open range when it extends it by exactly one day with the
same message. -/
def makeGroups (m : AnnotationMap) : List DateRange :=
  ((sortedDates m).foldl (mergeStep m) []).reverse

/-! ### Timestamp arithmetic lemmas -/

theorem getTime_sub_day (a b : DateKey) :
    getTime a - getTime b = 86400000 ↔ daysFromCivil a = daysFromCivil b + 1 := by
  unfold getTime epochDays
  omega

theorem getTime_ne_zero (k : DateKey) :
    getTime k ≠ 0 ↔ daysFromCivil k ≠ epochDays := by
  unfold getTime epochDays
  omega

theorem getTime_le_iff (a b : DateKey) :
    getTime a ≤ getTime b ↔ daysFromCivil a ≤ daysFromCivil b := by
  unfold getTime epochDays
  omega

/-! ### Sorted keys -/

theorem sortedDates_perm (m : AnnotationMap) :
    List.Perm (sortedDates m) (m.map Prod.fst) :=
  List.perm_insertionSort _ _

theorem sortedDates_valid (m : AnnotationMap) (hw : wellFormed m) :
    ∀ k ∈ sortedDates m, validDate k := by
  intro k hk
  have hk' : k ∈ m.map Prod.fst := (sortedDates_perm m).mem_iff.mp hk
  obtain ⟨p, hp, rfl⟩ := List.mem_map.mp hk'
  exact hw.1 p hp

theorem sortedDates_strict (m : AnnotationMap) (hw : wellFormed m) :
    (sortedDates m).Pairwise (fun a b => daysFromCivil a < daysFromCivil b) := by
  haveI : IsTotal DateKey (fun a b => getTime a ≤ getTime b) :=
    ⟨fun a b => le_total _ _⟩
  haveI : IsTrans DateKey (fun a b => getTime a ≤ getTime b) :=
    ⟨fun _ _ _ => le_trans⟩
  have hs' : (sortedDates m).Pairwise (fun a b => getTime a ≤ getTime b) :=
    List.sorted_insertionSort (fun a b => getTime a ≤ getTime b) (m.map Prod.fst)
  have hnd : (sortedDates m).Nodup := ((sortedDates_perm m).nodup_iff).mpr hw.2
  have hv := sortedDates_valid m hw
  have hcomb := List.Pairwise.and hs' hnd
  refine hcomb.imp_of_mem ?_
  intro a b ha hb hr
  obtain ⟨hle, hne⟩ := hr
  have h1 : daysFromCivil a ≤ daysFromCivil b := (getTime_le_iff a b).mp hle
  have h2 : daysFromCivil a ≠ daysFromCivil b := fun h =>
    hne (daysFromCivil_injOn a b (hv a ha) (hv b hb) h)
  omega

/-! ### The reducer invariant -/

/-- A day number lies in the inclusive span of a range. -/
def inSpan (g : DateRange) (j : Nat) : Prop :=
  daysFromCivil g.start ≤ j ∧ j ≤ daysFromCivil g.stop

instance inSpan.dec : ∀ g j, Decidable (inSpan g j) := fun g j => by
  unfold inSpan; infer_instance

/-- Invariant of the reducer fold: `acc` (most recent range first) is a
correct grouping of the processed prefix: its spans cover exactly the
day numbers of the processed keys, are pairwise disjoint and ordered,
each is nonempty, and its endpoints are processed keys. -/
def ReducerInv (processed : List DateKey) (acc : List DateRange) : Prop :=
  (∀ j : Nat, (∃ g ∈ acc, inSpan g j) ↔ ∃ k ∈ processed, daysFromCivil k = j) ∧
  acc.Pairwise (fun g h => daysFromCivil h.stop < daysFromCivil g.start) ∧
  (∀ g ∈ acc, daysFromCivil g.start ≤ daysFromCivil g.stop) ∧
  (∀ g ∈ acc, g.start ∈ processed ∧ g.stop ∈ processed)

theorem reducer_step (m : AnnotationMap) (processed : List DateKey)
    (acc : List DateRange) (el : DateKey)
    (hgt : ∀ k ∈ processed, daysFromCivil k < daysFromCivil el)
    (hinv : ReducerInv processed acc) :
    ReducerInv (processed ++ [el]) (mergeStep m acc el) := by
  obtain ⟨hcov, hpw, hse, hmem⟩ := hinv
  cases acc with
  | nil =>
    have hpe : processed = [] := by
      rw [List.eq_nil_iff_forall_not_mem]
      intro k hk
      have h := (hcov (daysFromCivil k)).mpr ⟨k, hk, rfl⟩
      simp at h
    subst hpe
    simp only [mergeStep, List.nil_append]
    refine ⟨?_, by simp, ?_, ?_⟩
    · intro j
      simp only [List.mem_singleton, inSpan]
      constructor
      · rintro ⟨g, rfl, h1, h2⟩
        exact ⟨el, by simp, by simp at h1 h2 ⊢; omega⟩
      · rintro ⟨k, hk, rfl⟩
        refine ⟨⟨el, el, (m.lookup el).map Annotation.message⟩, rfl, ?_, ?_⟩ <;>
          simp [hk]
    · intro g hg
      simp at hg
      subst hg
      simp [inSpan]
    · intro g hg
      simp at hg
      subst hg
      simp
  | cons last rest =>
    simp only [mergeStep]
    split_ifs with hc
    · -- merge: extend the open range's stop to el
      obtain ⟨hnz, hmsg, hday⟩ := hc
      rw [getTime_sub_day] at hday
      have hlast := hmem last (List.mem_cons_self _ _)
      have hsel : daysFromCivil last.start ≤ daysFromCivil last.stop :=
        hse last (List.mem_cons_self _ _)
      refine ⟨?_, ?_, ?_, ?_⟩
      · intro j
        constructor
        · rintro ⟨g, hg, hsp⟩
          rcases List.mem_cons.mp hg with rfl | hg'
          · by_cases hj : j = daysFromCivil el
            · exact ⟨el, List.mem_append_right _ (by simp), hj.symm⟩
            · have hsp' : inSpan last j := by
                unfold inSpan at hsp ⊢
                simp only at hsp
                omega
              obtain ⟨k, hk, hkj⟩ :=
                (hcov j).mp ⟨last, List.mem_cons_self _ _, hsp'⟩
              exact ⟨k, List.mem_append_left _ hk, hkj⟩
          · obtain ⟨k, hk, hkj⟩ := (hcov j).mp ⟨g, List.mem_cons_of_mem _ hg', hsp⟩
            exact ⟨k, List.mem_append_left _ hk, hkj⟩
        · rintro ⟨k, hk, rfl⟩
          rcases List.mem_append.mp hk with hk' | hk'
          · obtain ⟨g, hg, hsp⟩ := (hcov _).mpr ⟨k, hk', rfl⟩
            rcases List.mem_cons.mp hg with rfl | hg'
            · refine ⟨⟨g.start, el, g.message⟩, List.mem_cons_self _ _, ?_⟩
              unfold inSpan at hsp ⊢
              simp only at hsp ⊢
              omega
            · exact ⟨g, List.mem_cons_of_mem _ hg', hsp⟩
          · have hke : k = el := by simpa using hk'
            have hkd : daysFromCivil k = daysFromCivil el := by rw [hke]
            refine ⟨⟨last.start, el, last.message⟩, List.mem_cons_self _ _, ?_⟩
            unfold inSpan
            simp only
            omega
      · rw [List.pairwise_cons] at hpw ⊢
        obtain ⟨hhead, hrest⟩ := hpw
        exact ⟨fun h hh => hhead h hh, hrest⟩
      · intro g hg
        rcases List.mem_cons.mp hg with rfl | hg'
        · simp only
          omega
        · exact hse g (List.mem_cons_of_mem _ hg')
      · intro g hg
        rcases List.mem_cons.mp hg with rfl | hg'
        · exact ⟨List.mem_append_left _ hlast.1, List.mem_append_right _ (by simp)⟩
        · obtain ⟨h1, h2⟩ := hmem g (List.mem_cons_of_mem _ hg')
          exact ⟨List.mem_append_left _ h1, List.mem_append_left _ h2⟩
    · -- push a fresh single-day range
      have hstops : ∀ g ∈ last :: rest, daysFromCivil g.stop < daysFromCivil el :=
        fun g hg => hgt g.stop (hmem g hg).2
      refine ⟨?_, ?_, ?_, ?_⟩
      · intro j
        constructor
        · rintro ⟨g, hg, hsp⟩
          rcases List.mem_cons.mp hg with rfl | hg'
          · unfold inSpan at hsp
            simp only at hsp
            exact ⟨el, List.mem_append_right _ (by simp), by omega⟩
          · obtain ⟨k, hk, hkj⟩ := (hcov j).mp ⟨g, hg', hsp⟩
            exact ⟨k, List.mem_append_left _ hk, hkj⟩
        · rintro ⟨k, hk, rfl⟩
          rcases List.mem_append.mp hk with hk' | hk'
          · obtain ⟨g, hg, hsp⟩ := (hcov _).mpr ⟨k, hk', rfl⟩
            exact ⟨g, List.mem_cons_of_mem _ hg, hsp⟩
          · have hke : k = el := by simpa using hk'
            have hkd : daysFromCivil k = daysFromCivil el := by rw [hke]
            refine ⟨⟨el, el, (m.lookup el).map Annotation.message⟩,
              List.mem_cons_self _ _, ?_⟩
            unfold inSpan
            simp only
            omega
      · rw [List.pairwise_cons]
        exact ⟨fun h hh => hstops h hh, hpw⟩
      · intro g hg
        rcases List.mem_cons.mp hg with rfl | hg'
        · simp [inSpan]
        · exact hse g hg'
      · intro g hg
        rcases List.mem_cons.mp hg with rfl | hg'
        · exact ⟨List.mem_append_right _ (by simp), List.mem_append_right _ (by simp)⟩
        · obtain ⟨h1, h2⟩ := hmem g hg'
          exact ⟨List.mem_append_left _ h1, List.mem_append_left _ h2⟩

theorem reducer_fold (m : AnnotationMap) (rest : List DateKey) :
    ∀ (processed : List DateKey) (acc : List DateRange),
    (processed ++ rest).Pairwise (fun a b => daysFromCivil a < daysFromCivil b) →
    ReducerInv processed acc →
    ReducerInv (processed ++ rest) (rest.foldl (mergeStep m) acc) := by
  induction rest with
  | nil =>
    intro processed acc _ hinv
    simpa using hinv
  | cons el rest ih =>
    intro processed acc hsorted hinv
    have hgt : ∀ k ∈ processed, daysFromCivil k < daysFromCivil el := by
      intro k hk
      exact (List.pairwise_append.mp hsorted).2.2 k hk el (by simp)
    have hstep := reducer_step m processed acc el hgt hinv
    have hsorted' :
        ((processed ++ [el]) ++ rest).Pairwise
          (fun a b => daysFromCivil a < daysFromCivil b) := by
      simpa [List.append_assoc] using hsorted
    have h2 := ih (processed ++ [el]) (mergeStep m acc el) hsorted' hstep
    simpa [List.append_assoc] using h2

theorem makeGroups_inv (m : AnnotationMap) (hw : wellFormed m) :
    ReducerInv (sortedDates m) ((sortedDates m).foldl (mergeStep m) []) := by
  have hsorted := sortedDates_strict m hw
  have hbase : ReducerInv [] [] := by
    refine ⟨by simp, by simp, by simp, by simp⟩
  have h := reducer_fold m (sortedDates m) [] [] (by simpa) hbase
  simpa using h

/-- Properties of `makeGroups` transported from the reducer invariant:
coverage of exactly the key set, ordered disjoint spans, nonempty
spans, and endpoints drawn from the keys. -/
theorem makeGroups_props (m : AnnotationMap) (hw : wellFormed m) :
    (∀ j : Nat, (∃ g ∈ makeGroups m, inSpan g j) ↔
      ∃ k ∈ m.map Prod.fst, daysFromCivil k = j) ∧
    (makeGroups m).Pairwise
      (fun g h => daysFromCivil g.stop < daysFromCivil h.start) ∧
    (∀ g ∈ makeGroups m, daysFromCivil g.start ≤ daysFromCivil g.stop) ∧
    (∀ g ∈ makeGroups m, g.start ∈ m.map Prod.fst ∧ g.stop ∈ m.map Prod.fst) := by
  obtain ⟨hcov, hpw, hse, hmem⟩ := makeGroups_inv m hw
  have hkey : ∀ k, k ∈ sortedDates m ↔ k ∈ m.map Prod.fst :=
    fun k => (sortedDates_perm m).mem_iff
  refine ⟨?_, ?_, ?_, ?_⟩
  · intro j
    have hiff : (∃ k ∈ sortedDates m, daysFromCivil k = j) ↔
        ∃ k ∈ List.map Prod.fst m, daysFromCivil k = j := by
      constructor
      · rintro ⟨k, hk, rfl⟩
        exact ⟨k, (hkey k).mp hk, rfl⟩
      · rintro ⟨k, hk, rfl⟩
        exact ⟨k, (hkey k).mpr hk, rfl⟩
    rw [← hiff, ← hcov j]
    unfold makeGroups
    constructor <;> rintro ⟨g, hg, hs⟩ <;>
      exact ⟨g, by simpa [List.mem_reverse] using hg, hs⟩
  · unfold makeGroups
    rw [List.pairwise_reverse]
    exact hpw
  · intro g hg
    exact hse g (by simpa [makeGroups, List.mem_reverse] using hg)
  · intro g hg
    obtain ⟨h1, h2⟩ := hmem g (by simpa [makeGroups, List.mem_reverse] using hg)
    exact ⟨(hkey _).mp h1, (hkey _).mp h2⟩

/-- In a pairwise "disjoint" list, at most one member satisfies a
predicate incompatible with the pairwise relation. -/
theorem pairwise_unique_of_mem {α : Type} {R : α → α → Prop} (P : α → Prop)
    {l : List α} (hp : l.Pairwise R)
    (hdisj : ∀ a b, R a b → P a → P b → False) :
    ∀ a ∈ l, ∀ b ∈ l, P a → P b → a = b := by
  induction l with
  | nil => intro a ha; cases ha
  | cons x xs ih =>
    rw [List.pairwise_cons] at hp
    intro a ha b hb hPa hPb
    rcases List.mem_cons.mp ha with rfl | ha' <;>
      rcases List.mem_cons.mp hb with rfl | hb'
    · rfl
    · exact (hdisj a b (hp.1 b hb') hPa hPb).elim
    · exact (hdisj b a (hp.1 a ha') hPb hPa).elim
    · exact ih hp.2 a ha' b hb' hPa hPb

instance wellFormed.dec : DecidablePred wellFormed := fun m => by
  unfold wellFormed; infer_instance

/-- Three consecutive New Year holidays (the spec's scenario input),
used to witness the aggregation theorems. -/
def exMap : AnnotationMap :=
  [(⟨2026, 1, 1⟩, ⟨"Новый год", true, false⟩),
   (⟨2026, 1, 2⟩, ⟨"Новый год", true, false⟩),
   (⟨2026, 1, 3⟩, ⟨"Новый год", true, false⟩)]

/-- C2: for every AnnotationMap with valid, unique keys, the output
ranges of `makeGroups` cover exactly the key set: every key's day lies
in the span of exactly one range, and every day inside any range's
span is the day of some key. -/
theorem makeGroups_coverage (m : AnnotationMap) (hw : wellFormed m) :
    (∀ k ∈ m.map Prod.fst, ∃ g ∈ makeGroups m, inSpan g (daysFromCivil k) ∧
      ∀ g' ∈ makeGroups m, inSpan g' (daysFromCivil k) → g' = g) ∧
    (∀ g ∈ makeGroups m, ∀ j : Nat, inSpan g j →
      ∃ k ∈ m.map Prod.fst, daysFromCivil k = j) := by
  obtain ⟨hcov, hpw, hse, _⟩ := makeGroups_props m hw
  constructor
  · intro k hk
    obtain ⟨g, hg, hsp⟩ := (hcov (daysFromCivil k)).mpr ⟨k, hk, rfl⟩
    refine ⟨g, hg, hsp, ?_⟩
    intro g' hg' hsp'
    refine pairwise_unique_of_mem (fun g => inSpan g (daysFromCivil k)) hpw ?_
      g' hg' g hg hsp' hsp
    intro a b hab hPa hPb
    unfold inSpan at hPa hPb
    omega
  · intro g hg j hsp
    exact (hcov j).mp ⟨g, hg, hsp⟩

theorem makeGroups_coverage_witness :
    wellFormed exMap ∧
    ((∀ k ∈ exMap.map Prod.fst, ∃ g ∈ makeGroups exMap, inSpan g (daysFromCivil k) ∧
      ∀ g' ∈ makeGroups exMap, inSpan g' (daysFromCivil k) → g' = g) ∧
    (∀ g ∈ makeGroups exMap, ∀ j : Nat, inSpan g j →
      ∃ k ∈ exMap.map Prod.fst, daysFromCivil k = j)) :=
  ⟨by decide, makeGroups_coverage exMap (by decide)⟩

/-- C4: the ranges of `makeGroups` are pairwise non-overlapping (each
ends strictly before the next starts), strictly increasing by start
day, and each satisfies start ≤ stop chronologically. -/
theorem makeGroups_ordered (m : AnnotationMap) (hw : wellFormed m) :
    (makeGroups m).Pairwise (fun g h =>
      daysFromCivil g.stop < daysFromCivil h.start ∧
      daysFromCivil g.start < daysFromCivil h.start) ∧
    ∀ g ∈ makeGroups m, daysFromCivil g.start ≤ daysFromCivil g.stop := by
  obtain ⟨_, hpw, hse, _⟩ := makeGroups_props m hw
  refine ⟨?_, hse⟩
  refine hpw.imp_of_mem ?_
  intro a b ha hb hr
  have hsea := hse a ha
  exact ⟨hr, by omega⟩

theorem makeGroups_ordered_witness :
    wellFormed exMap ∧
    ((makeGroups exMap).Pairwise (fun g h =>
      daysFromCivil g.stop < daysFromCivil h.start ∧
      daysFromCivil g.start < daysFromCivil h.start) ∧
    ∀ g ∈ makeGroups exMap, daysFromCivil g.start ≤ daysFromCivil g.stop) :=
  ⟨by decide, makeGroups_ordered exMap (by decide)⟩

/-- C3 (amended): the reducer merges `el` into the open range exactly
when the messages agree, `el` is one calendar day after the range's
`stop`, and the `stop`'s timestamp is nonzero — i.e. the stop is not
1970-01-01, whose timestamp `0` is falsy in the source's
`prevDateEnd && ...` test.  On valid dates, "one calendar day after"
coincides with the true calendar successor. -/
theorem mergeStep_merges_iff (m : AnnotationMap) (last : DateRange)
    (acc : List DateRange) (el : DateKey)
    (hvl : validDate last.stop) (hve : validDate el) :
    (mergeStep m (last :: acc) el = ⟨last.start, el, last.message⟩ :: acc ↔
      ((m.lookup el).map Annotation.message = last.message ∧
        daysFromCivil el = daysFromCivil last.stop + 1 ∧
        last.stop ≠ ⟨1970, 1, 1⟩)) ∧
    (validDate (calendarSucc last.stop) →
      (daysFromCivil el = daysFromCivil last.stop + 1 ↔
        el = calendarSucc last.stop)) := by
  have hepoch : daysFromCivil (⟨1970, 1, 1⟩ : DateKey) = epochDays := by decide
  have hvepoch : validDate (⟨1970, 1, 1⟩ : DateKey) := by decide
  constructor
  · have hred : mergeStep m (last :: acc) el =
        if getTime last.stop ≠ 0 ∧
            (m.lookup el).map Annotation.message = last.message ∧
            getTime el - getTime last.stop = 86400000 then
          ⟨last.start, el, last.message⟩ :: acc
        else ⟨el, el, (m.lookup el).map Annotation.message⟩ :: last :: acc := rfl
    rw [hred]
    split_ifs with hc
    · obtain ⟨hnz, hmsg, hday⟩ := hc
      rw [getTime_sub_day] at hday
      rw [getTime_ne_zero] at hnz
      refine iff_of_true rfl ⟨hmsg, hday, ?_⟩
      intro heq
      exact hnz (by rw [heq, hepoch])
    · refine iff_of_false ?_ ?_
      · intro h
        have hlen := congrArg List.length h
        simp at hlen
      · rintro ⟨hmsg, hday, hne⟩
        apply hc
        refine ⟨?_, hmsg, ?_⟩
        · rw [getTime_ne_zero]
          intro h0
          exact hne (daysFromCivil_injOn _ _ hvl hvepoch (by rw [h0, hepoch]))
        · rw [getTime_sub_day]
          exact hday
  · intro hvs
    constructor
    · intro hday
      have hsucc := daysFromCivil_calendarSucc last.stop hvl
      exact daysFromCivil_injOn el (calendarSucc last.stop) hve hvs (by omega)
    · intro heq
      rw [heq, daysFromCivil_calendarSucc last.stop hvl]

theorem mergeStep_merges_iff_witness :
    validDate ((⟨⟨2026, 1, 1⟩, ⟨2026, 1, 1⟩, some "Новый год"⟩ : DateRange).stop) ∧
    validDate (⟨2026, 1, 2⟩ : DateKey) ∧
    ((mergeStep exMap [⟨⟨2026, 1, 1⟩, ⟨2026, 1, 1⟩, some "Новый год"⟩] ⟨2026, 1, 2⟩ =
        [⟨⟨2026, 1, 1⟩, ⟨2026, 1, 2⟩, some "Новый год"⟩] ↔
      ((exMap.lookup ⟨2026, 1, 2⟩).map Annotation.message = some "Новый год" ∧
        daysFromCivil ⟨2026, 1, 2⟩ = daysFromCivil ⟨2026, 1, 1⟩ + 1 ∧
        (⟨2026, 1, 1⟩ : DateKey) ≠ ⟨1970, 1, 1⟩)) ∧
    (validDate (calendarSucc ⟨2026, 1, 1⟩) →
      (daysFromCivil ⟨2026, 1, 2⟩ = daysFromCivil ⟨2026, 1, 1⟩ + 1 ↔
        (⟨2026, 1, 2⟩ : DateKey) = calendarSucc ⟨2026, 1, 1⟩))) :=
  ⟨by decide, by decide,
    mergeStep_merges_iff exMap ⟨⟨2026, 1, 1⟩, ⟨2026, 1, 1⟩, some "Новый год"⟩ []
      ⟨2026, 1, 2⟩ (by decide) (by decide)⟩

/-- Two adjacent epoch-era days sharing one message. -/
def epochMap : AnnotationMap :=
  [(⟨1970, 1, 1⟩, ⟨"x", true, false⟩), (⟨1970, 1, 2⟩, ⟨"x", true, false⟩)]

/-- C3 counterexample: 1970-01-01 and 1970-01-02 are chronologically
adjacent and carry the same message, yet `makeGroups` returns two
single-day ranges instead of one merged range, because the open
range's end timestamp `0` (the Unix epoch) is falsy. -/
theorem makeGroups_epoch_no_merge :
    daysFromCivil ⟨1970, 1, 2⟩ = daysFromCivil ⟨1970, 1, 1⟩ + 1 ∧
    (⟨1970, 1, 2⟩ : DateKey) = calendarSucc ⟨1970, 1, 1⟩ ∧
    (epochMap.lookup ⟨1970, 1, 2⟩).map Annotation.message =
      (epochMap.lookup ⟨1970, 1, 1⟩).map Annotation.message ∧
    makeGroups epochMap =
      [⟨⟨1970, 1, 1⟩, ⟨1970, 1, 1⟩, some "x"⟩,
       ⟨⟨1970, 1, 2⟩, ⟨1970, 1, 2⟩, some "x"⟩] :=
  ⟨by decide, by decide, by decide, by decide⟩

/-! ### Order independence (C5) -/

theorem lookup_eq_of_perm :
    ∀ {m1 m2 : AnnotationMap}, List.Perm m1 m2 →
    (m1.map Prod.fst).Nodup → ∀ k : DateKey, m1.lookup k = m2.lookup k := by
  intro m1 m2 h
  induction h with
  | nil => intro _ k; rfl
  | cons p h ih =>
    intro hnd k
    obtain ⟨pk, pv⟩ := p
    simp only [List.lookup]
    rcases hkp : k == pk with _ | _
    · simp only []
      exact ih (by simp at hnd; exact hnd.2) k
    · rfl
  | swap x y l =>
    intro hnd k
    obtain ⟨xk, xv⟩ := x
    obtain ⟨yk, yv⟩ := y
    have hxy : yk ≠ xk := by
      simp at hnd
      intro h
      exact hnd.1.1 (by rw [h])
    simp only [List.lookup]
    rcases h1 : k == yk with _ | _ <;> rcases h2 : k == xk with _ | _ <;>
      simp only []
    have hk1 : k = yk := by simpa using h1
    have hk2 : k = xk := by simpa using h2
    exact absurd (hk1 ▸ hk2) hxy
  | trans h1 h2 ih1 ih2 =>
    intro hnd k
    rw [ih1 hnd k, ih2 (((h1.map Prod.fst).nodup_iff).mp hnd) k]

theorem sortedDates_eq_of_perm (m1 m2 : AnnotationMap) (hw1 : wellFormed m1)
    (hperm : List.Perm m1 m2) : sortedDates m1 = sortedDates m2 := by
  have hw2 : wellFormed m2 :=
    ⟨fun p hp => hw1.1 p (hperm.mem_iff.mpr hp),
     ((hperm.map Prod.fst).nodup_iff).mp hw1.2⟩
  have h1 := sortedDates_strict m1 hw1
  have h2 := sortedDates_strict m2 hw2
  have hp : List.Perm (sortedDates m1) (sortedDates m2) :=
    (sortedDates_perm m1).trans ((hperm.map Prod.fst).trans (sortedDates_perm m2).symm)
  haveI : IsAntisymm DateKey (fun a b => daysFromCivil a < daysFromCivil b) :=
    ⟨fun a b hab hba => absurd hba (by omega)⟩
  exact List.eq_of_perm_of_sorted hp h1 h2

/-- C5: `makeGroups` does not depend on the map's insertion order: two
maps holding the same key-annotation pairs (in any order) produce
identical range sequences, because the keys are sorted
chronologically before the single merging walk. -/
theorem makeGroups_order_independent (m1 m2 : AnnotationMap)
    (hw1 : wellFormed m1) (hperm : List.Perm m1 m2) :
    makeGroups m1 = makeGroups m2 := by
  unfold makeGroups
  rw [sortedDates_eq_of_perm m1 m2 hw1 hperm]
  congr 1
  apply List.foldl_ext
  intro acc el _
  have hl := lookup_eq_of_perm hperm hw1.2 el
  cases acc with
  | nil => simp only [mergeStep, hl]
  | cons last rest => simp only [mergeStep, hl]

theorem makeGroups_order_independent_witness :
    wellFormed exMap ∧ List.Perm exMap exMap.reverse ∧
    makeGroups exMap = makeGroups exMap.reverse :=
  ⟨by decide, by exact (List.reverse_perm exMap).symm,
    makeGroups_order_independent exMap exMap.reverse (by decide)
      ((List.reverse_perm exMap).symm)⟩

/-! ### Strings and the `text` template helper

JavaScript strings are sequences of characters; we embed them as
`List Char` and write the string operations the source uses
(`replace`, `trim`, `split`, `join`, `padStart`) directly on
character lists.
-/

/-- JavaScript whitespace (the characters `\s` and `trim` treat as
whitespace that can occur in this program's data). -/
def isJsWs (c : Char) : Bool :=
  c == ' ' || c == '\t' || c == '\n' || c == '\r' || c == '\x0b' || c == '\x0c'

/-- One pass of `replace(/\n.\s{2,}/gi, '\n')`: scan left to right; at
a newline followed by any non-newline character and at least two
whitespace characters, emit `\n` and resume after the consumed run
(the `\s{2,}` is greedy); otherwise advance one character.  The fuel
argument bounds the recursion; `stripRun` supplies enough. -/
def stripRunF : Nat → List Char → List Char
  | 0, l => l
  | _, [] => []
  | fuel + 1, '\n' :: rest =>
    match rest with
    | [] => ['\n']
    | c :: rest' =>
      if c = '\n' then '\n' :: stripRunF fuel rest
      else
        let ws := rest'.takeWhile isJsWs
        if 2 ≤ ws.length then '\n' :: stripRunF fuel (rest'.drop ws.length)
        else '\n' :: stripRunF fuel rest
  | fuel + 1, c :: rest => c :: stripRunF fuel rest

def stripRun (l : List Char) : List Char := stripRunF (l.length + 1) l

/-- `replace(/^\n/gi, '')`: remove a single leading newline. -/
def stripLeadingNl : List Char → List Char
  | '\n' :: rest => rest
  | l => l

/-- `String.prototype.trim`. -/
def jsTrim (l : List Char) : List Char :=
  (((l.dropWhile isJsWs).reverse).dropWhile isJsWs).reverse

/-- `Array.prototype.join(sep)`. -/
def jsIntercalate (sep : List Char) : List (List Char) → List Char
  | [] => []
  | [x] => x
  | x :: xs => x ++ sep ++ jsIntercalate sep xs

/-- `String.prototype.split(c)` for a single-character separator. -/
def splitOnChar (c : Char) : List Char → List (List Char)
  | [] => [[]]
  | ch :: rest =>
    if ch = c then [] :: splitOnChar c rest
    else (ch :: (splitOnChar c rest).headD []) :: (splitOnChar c rest).tail

/-- `el.padStart(2, '0')`. -/
def padStart2 (s : List Char) : List Char :=
  if s.length < 2 then List.replicate (2 - s.length) '0' ++ s else s

/-- `formatDate`: split the key on `-`, zero-pad each component to two
characters, and re-join with `sep`. -/
def formatDate (date : List Char) (sep : List Char) : List Char :=
  jsIntercalate sep ((splitOnChar '-' date).map padStart2)

/-- Most-significant-first digit characters of `n`, with explicit fuel
so the kernel can evaluate it. -/
def natCharsAux : Nat → Nat → List Char
  | 0, _ => []
  | fuel + 1, n =>
    if n = 0 then []
    else natCharsAux fuel (n / 10) ++ [Char.ofNat (48 + n % 10)]

/-- Decimal numeral of a natural number, as JavaScript renders numbers
in template literals. -/
def natChars (n : Nat) : List Char :=
  if n = 0 then ['0'] else natCharsAux n n

theorem natCharsAux_eq (fuel n : Nat) (h : n ≤ fuel) :
    natCharsAux fuel n
      = ((Nat.digits 10 n).map (fun d => Char.ofNat (48 + d))).reverse := by
  induction fuel generalizing n with
  | zero =>
    interval_cases n
    simp [natCharsAux]
  | succ f ih =>
    by_cases hn : n = 0
    · subst hn
      simp [natCharsAux]
    · rw [natCharsAux, if_neg hn, ih (n / 10) (by omega),
        Nat.digits_def' (by norm_num : 1 < 10) (Nat.pos_of_ne_zero hn)]
      simp

/-- `natChars` agrees with the `Nat.digits`-based rendering. -/
theorem natChars_eq_digits (n : Nat) :
    natChars n = if n = 0 then ['0']
      else ((Nat.digits 10 n).map (fun d => Char.ofNat (48 + d))).reverse := by
  unfold natChars
  split_ifs with h
  · rfl
  · exact natCharsAux_eq n n le_rfl

/-- The map key string `${year}-${monthIndex+1}-${dayNumber}` built by
`parseData`: unpadded decimal components joined by dashes. -/
def renderKey (k : DateKey) : List Char :=
  natChars k.y ++ ['-'] ++ natChars k.m ++ ['-'] ++ natChars k.d

/-- Zero-pad a numeral to four characters (the year field of
`toISOString`). -/
def pad4 (n : Nat) : List Char :=
  List.replicate (4 - (natChars n).length) '0' ++ natChars n

/-- Zero-pad a numeral to two characters. -/
def pad2N (n : Nat) : List Char :=
  if n < 10 then '0' :: natChars n else natChars n

/-- The date part of `toISOString()`: `YYYY-MM-DD`. -/
def isoDate (k : DateKey) : List Char :=
  pad4 k.y ++ ['-'] ++ pad2N k.m ++ ['-'] ++ pad2N k.d

/-- The calendar date holding a given UTC timestamp (milliseconds):
what `new Date(ms).toISOString()` reports. -/
def msToCivil (t : Int) : DateKey :=
  civilFromDays (Int.toNat (Int.fdiv t 86400000 + (epochDays : Int)))

/-- The five raw chunks of `createEvent`'s template literal, exactly as
they appear between the interpolation sites in the source. -/
def eventPieces : List (List Char) :=
  ["\n    BEGIN:VEVENT\n    SUMMARY:".data,
   "\n    DTSTART;VALUE=DATE:".data,
   "\n    DTEND;VALUE=DATE:".data,
   "\n    UID:".data,
   "\n    END:VEVENT\n  ".data]

/-- The `text` tagged-template helper: strip each raw chunk's
indentation run and leading newline, append the interpolated value
(`param[index] || ''` — a missing or empty value contributes the empty
string), join the processed chunks with newlines, and trim. -/
def text (pieces params : List (List Char)) : List Char :=
  jsTrim (jsIntercalate ['\n']
    (pieces.mapIdx fun i el => stripLeadingNl (stripRun el) ++ params.getD i []))

/-- `createEvent`: compute the exclusive end date by adding 24h to the
parsed end date and reading the ISO date back, then fill the template.
`new Date(formatDate(end, '-'))` parses the padded ISO key at UTC
midnight, which is `getTime`. -/
def createEvent (uid : List Char) (g : DateRange) : List Char :=
  let endIso := isoDate (msToCivil (getTime g.stop + 86400000))
  text eventPieces
    [(g.message.getD "").data, formatDate (renderKey g.start) [],
     formatDate endIso [], uid]

/-- `customAlphabet('1234567890abcdef', 50)`: the UID alphabet. -/
def uidAlphabet : List Char := "1234567890abcdef".data

/-- `makeId()`: the `call`-th invocation draws 50 alphabet indices from
the random source. -/
def makeId (entropy : Nat → Fin 16) (call : Nat) : List Char :=
  (List.range 50).map fun i =>
    uidAlphabet.get ⟨(entropy (call * 50 + i)).val, by
      have h := (entropy (call * 50 + i)).isLt
      have hl : uidAlphabet.length = 16 := rfl
      omega⟩

/-- The five header lines `main` pushes before the events. -/
def headerLines : List (List Char) :=
  ["BEGIN:VCALENDAR".data,
   "VERSION:2.0".data,
   "PRODID:-//Work calendar//ical.lexfoxer.com/work//RU".data,
   "X-WR-CALNAME:Производственный календарь".data,
   "NAME:Производственный календарь".data]

/-- The document `main` assembles: header lines, one event block per
range (each `createEvent` call drawing fresh UID randomness), and the
closing line, joined by newlines. -/
def buildDocument (entropy : Nat → Fin 16) (m : AnnotationMap) : List Char :=
  jsIntercalate ['\n']
    (headerLines ++
      (makeGroups m).mapIdx (fun i g => createEvent (makeId entropy i) g) ++
      ["END:VCALENDAR".data])

/-- The lines of a document. -/
def docLines (doc : List Char) : List (List Char) := splitOnChar '\n' doc

theorem dropWhile_eq_self_of_head (l : List Char) (c : Char) (rest : List Char)
    (h : l = c :: rest) (hc : isJsWs c = false) :
    List.dropWhile isJsWs l = l := by
  subst h
  simp [List.dropWhile_cons, hc]

/-- Evaluation of the `text` template on the `createEvent` chunks: the
indentation runs and the leading newline disappear, the trailing
newline-and-indent is trimmed, and the interpolated values sit on
their own labelled lines.  The left-hand side is the exact shape
`join('\n')` produces on the five processed chunks. -/
theorem jsTrim_event (msg s8 e8 u : List Char) :
    jsTrim ((("BEGIN:VEVENT\nSUMMARY:".data ++ msg) ++ ['\n']) ++
      ((("DTSTART;VALUE=DATE:".data ++ s8) ++ ['\n']) ++
      ((("DTEND;VALUE=DATE:".data ++ e8) ++ ['\n']) ++
      ((("UID:".data ++ u) ++ ['\n']) ++ ("END:VEVENT\n  ".data ++ []))))) =
    "BEGIN:VEVENT\nSUMMARY:".data ++ (msg ++ ("\nDTSTART;VALUE=DATE:".data ++
      (s8 ++ ("\nDTEND;VALUE=DATE:".data ++ (e8 ++ ("\nUID:".data ++
      (u ++ "\nEND:VEVENT".data))))))) := by
  unfold jsTrim
  rw [dropWhile_eq_self_of_head
    ((("BEGIN:VEVENT\nSUMMARY:".data ++ msg) ++ ['\n']) ++
      ((("DTSTART;VALUE=DATE:".data ++ s8) ++ ['\n']) ++
      ((("DTEND;VALUE=DATE:".data ++ e8) ++ ['\n']) ++
      ((("UID:".data ++ u) ++ ['\n']) ++ ("END:VEVENT\n  ".data ++ [])))))
    'B' _ rfl (by decide)]
  simp only [List.reverse_append, List.append_assoc]
  rw [show ("END:VEVENT\n  ".data).reverse
      = "  \n".data ++ ('T' :: "NEVEV:DNE".data) from rfl]
  simp only [List.append_assoc, List.cons_append, List.nil_append, List.reverse_nil]
  rw [List.dropWhile_cons_of_pos (by decide), List.dropWhile_cons_of_pos (by decide),
    List.dropWhile_cons_of_pos (by decide), List.dropWhile_cons_of_neg (by decide)]
  simp only [List.reverse_cons, List.reverse_append, List.reverse_reverse,
    List.reverse_nil, List.append_assoc, List.nil_append, List.singleton_append,
    List.cons_append, List.append_nil]

set_option maxHeartbeats 1600000 in
/-- `createEvent` produces exactly the six labelled lines. -/
theorem createEvent_eq (uid : List Char) (g : DateRange) :
    createEvent uid g =
      "BEGIN:VEVENT\nSUMMARY:".data ++ ((g.message.getD "").data ++
        ("\nDTSTART;VALUE=DATE:".data ++ (formatDate (renderKey g.start) [] ++
        ("\nDTEND;VALUE=DATE:".data ++
        (formatDate (isoDate (msToCivil (getTime g.stop + 86400000))) [] ++
        ("\nUID:".data ++ (uid ++ "\nEND:VEVENT".data))))))) := by
  refine Eq.trans ?_ (jsTrim_event (g.message.getD "").data
    (formatDate (renderKey g.start) [])
    (formatDate (isoDate (msToCivil (getTime g.stop + 86400000))) []) uid)
  rfl

/-- C7: an empty AnnotationMap is not an error: the pipeline emits a
document of exactly the five header lines followed immediately by
`END:VCALENDAR`, with no event blocks. -/
theorem emptyMap_document (entropy : Nat → Fin 16) :
    buildDocument entropy [] =
      ("BEGIN:VCALENDAR\nVERSION:2.0\nPRODID:-//Work calendar//ical.lexfoxer.com/work//RU\nX-WR-CALNAME:Производственный календарь\nNAME:Производственный календарь\nEND:VCALENDAR").data ∧
    makeGroups ([] : AnnotationMap) = [] ∧
    docLines (buildDocument entropy []) = headerLines ++ ["END:VCALENDAR".data] :=
  ⟨rfl, rfl, rfl⟩

/-! ### Decimal numerals -/

theorem toNat_ofNat_digit (d : Nat) (h : d < 10) :
    (Char.ofNat (48 + d)).toNat = 48 + d := by
  interval_cases d <;> decide

theorem natChars_digit (n : Nat) : ∀ c ∈ natChars n, 48 ≤ c.toNat ∧ c.toNat ≤ 57 := by
  intro c hc
  rw [natChars_eq_digits] at hc
  split_ifs at hc
  · simp at hc
    subst hc
    decide
  · rw [List.mem_reverse, List.mem_map] at hc
    obtain ⟨d, hd, rfl⟩ := hc
    have hlt : d < 10 := Nat.digits_lt_base (by norm_num) hd
    rw [toNat_ofNat_digit d hlt]
    omega

theorem natChars_ne_nil (n : Nat) : natChars n ≠ [] := by
  rw [natChars_eq_digits]
  split_ifs with h
  · simp
  · simp [Nat.digits_ne_nil_iff_ne_zero, h]

/-- `c.toNat - 48`: the value of a decimal digit character. -/
def charVal (c : Char) : Nat := c.toNat - 48

theorem decode_natChars (n : Nat) :
    Nat.ofDigits 10 (((natChars n).map charVal).reverse) = n := by
  rw [natChars_eq_digits]
  split_ifs with h
  · subst h
    decide
  · rw [List.map_reverse, List.reverse_reverse, List.map_map]
    have hmap : (Nat.digits 10 n).map (charVal ∘ fun d => Char.ofNat (48 + d))
        = (Nat.digits 10 n).map id := by
      apply List.map_congr_left
      intro d hd
      have hlt : d < 10 := Nat.digits_lt_base (by norm_num) hd
      simp [charVal, toNat_ofNat_digit d hlt]
    rw [hmap, List.map_id, Nat.ofDigits_digits]

theorem ofDigits_replicate_zero (z : Nat) :
    Nat.ofDigits 10 (List.replicate z 0) = 0 := by
  induction z with
  | zero => rfl
  | succ k ih => simp [List.replicate_succ, Nat.ofDigits_cons, ih]

theorem natChars_len_le (n k : Nat) (hk : 1 ≤ k) (h : n < 10 ^ k) :
    (natChars n).length ≤ k := by
  rw [natChars_eq_digits]
  split_ifs with h0
  · simpa using hk
  · simp only [List.length_reverse, List.length_map]
    by_contra hlen
    push_neg at hlen
    have h1 : (10 : Nat) ^ (Nat.digits 10 n).length ≤ 10 * n :=
      Nat.base_pow_length_digits_le' 8 n h0
    have h2 : (10 : Nat) ^ (k + 1) ≤ 10 ^ (Nat.digits 10 n).length :=
      Nat.pow_le_pow_right (by norm_num) hlen
    have h3 : (10 : Nat) ^ (k + 1) = 10 * 10 ^ k := by ring
    have h4 : (10 : Nat) ^ k ≤ n := by
      have := le_trans h2 h1
      rw [h3] at this
      exact Nat.le_of_mul_le_mul_left this (by norm_num)
    omega

theorem natChars_len_ge (n k : Nat) (h : 10 ^ k ≤ n) :
    k + 1 ≤ (natChars n).length := by
  have hp : (0 : Nat) < 10 ^ k := by positivity
  have h0 : n ≠ 0 := by omega
  rw [natChars_eq_digits, if_neg h0]
  simp only [List.length_reverse, List.length_map]
  by_contra hlen
  push_neg at hlen
  have h1 : n < 10 ^ (Nat.digits 10 n).length :=
    @Nat.lt_base_pow_length_digits 10 n (by norm_num)
  have h2 : (10 : Nat) ^ (Nat.digits 10 n).length ≤ 10 ^ k :=
    Nat.pow_le_pow_right (by norm_num) (by omega)
  omega

theorem pad4_len (n : Nat) (h : n ≤ 9999) : (pad4 n).length = 4 := by
  unfold pad4
  have h1 := natChars_len_le n 4 (by norm_num) (by norm_num; omega)
  simp [List.length_append, List.length_replicate]
  omega

theorem pad2N_len (n : Nat) (h : n ≤ 99) : (pad2N n).length = 2 := by
  unfold pad2N
  have hne := natChars_ne_nil n
  have hlen1 : 1 ≤ (natChars n).length := List.length_pos.mpr hne
  split_ifs with h10
  · have := natChars_len_le n 1 (by norm_num) (by omega)
    simp
    omega
  · have h2 := natChars_len_le n 2 (by norm_num) (by norm_num; omega)
    have h3 := natChars_len_ge n 1 (by omega)
    omega

theorem decode_pad4 (n : Nat) :
    Nat.ofDigits 10 (((pad4 n).map charVal).reverse) = n := by
  unfold pad4
  rw [List.map_append, List.reverse_append]
  have hrep : ((List.replicate (4 - (natChars n).length) '0').map charVal).reverse
      = List.replicate (4 - (natChars n).length) 0 := by
    rw [List.map_replicate, List.reverse_replicate]
    rfl
  rw [hrep, Nat.ofDigits_append, ofDigits_replicate_zero, decode_natChars]
  ring

theorem decode_pad2N (n : Nat) :
    Nat.ofDigits 10 (((pad2N n).map charVal).reverse) = n := by
  unfold pad2N
  split_ifs with h10
  · rw [List.map_cons, List.reverse_cons, Nat.ofDigits_append, decode_natChars]
    simp [charVal, Nat.ofDigits]
  · exact decode_natChars n

/-- Modelled from the spec: the "8-digit zero-padded YYYYMMDD string"
of a date — four-digit zero-padded year, two-digit zero-padded month
and day, concatenated without separators. -/
def yyyymmdd (k : DateKey) : List Char :=
  pad4 k.y ++ pad2N k.m ++ pad2N k.d

theorem yyyymmdd_len (k : DateKey) (hy : k.y ≤ 9999) (hm : k.m ≤ 99)
    (hd : k.d ≤ 99) : (yyyymmdd k).length = 8 := by
  unfold yyyymmdd
  simp [List.length_append, pad4_len k.y hy, pad2N_len k.m hm, pad2N_len k.d hd]

theorem yyyymmdd_inj (a b : DateKey)
    (hya : a.y ≤ 9999) (hma : a.m ≤ 99) (hda : a.d ≤ 99)
    (hyb : b.y ≤ 9999) (hmb : b.m ≤ 99) (hdb : b.d ≤ 99)
    (h : yyyymmdd a = yyyymmdd b) : a = b := by
  unfold yyyymmdd at h
  have h1 := List.append_inj' h (by rw [pad2N_len a.d hda, pad2N_len b.d hdb])
  obtain ⟨h2, hd⟩ := h1
  have h3 := List.append_inj' h2 (by rw [pad2N_len a.m hma, pad2N_len b.m hmb])
  obtain ⟨hy, hm⟩ := h3
  have ey : a.y = b.y := by
    have := congrArg (fun l => Nat.ofDigits 10 ((l.map charVal).reverse)) hy
    simpa [decode_pad4] using this
  have em : a.m = b.m := by
    have := congrArg (fun l => Nat.ofDigits 10 ((l.map charVal).reverse)) hm
    simpa [decode_pad2N] using this
  have ed : a.d = b.d := by
    have := congrArg (fun l => Nat.ofDigits 10 ((l.map charVal).reverse)) hd
    simpa [decode_pad2N] using this
  ext <;> assumption

/-! ### Splitting and joining -/

theorem splitOnChar_ne_nil (c : Char) (l : List Char) : splitOnChar c l ≠ [] := by
  cases l with
  | nil => simp [splitOnChar]
  | cons x rest =>
    simp only [splitOnChar]
    split_ifs <;> simp

theorem splitOnChar_cons_self (c : Char) (l : List Char) :
    splitOnChar c (c :: l) = [] :: splitOnChar c l := by
  simp [splitOnChar]

theorem splitOnChar_cons_ne (c x : Char) (l : List Char) (hx : x ≠ c) :
    splitOnChar c (x :: l) =
      (x :: (splitOnChar c l).headD []) :: (splitOnChar c l).tail := by
  simp [splitOnChar, hx]

theorem splitOnChar_not_mem (c : Char) (l : List Char)
    (h : ∀ x ∈ l, x ≠ c) : splitOnChar c l = [l] := by
  induction l with
  | nil => rfl
  | cons x rest ih =>
    rw [splitOnChar_cons_ne c x rest (h x (by simp))]
    rw [ih (fun y hy => h y (by simp [hy]))]
    rfl

theorem splitOnChar_sep (c : Char) (a rest : List Char)
    (ha : ∀ x ∈ a, x ≠ c) :
    splitOnChar c (a ++ c :: rest) = a :: splitOnChar c rest := by
  induction a with
  | nil => simpa using splitOnChar_cons_self c rest
  | cons x a' ih =>
    rw [List.cons_append, splitOnChar_cons_ne c x _ (ha x (by simp))]
    rw [ih (fun y hy => ha y (by simp [hy]))]
    rfl

theorem mem_jsIntercalate_nil (pieces : List (List Char)) (x : Char)
    (h : x ∈ jsIntercalate [] pieces) : ∃ p ∈ pieces, x ∈ p := by
  induction pieces with
  | nil => simp [jsIntercalate] at h
  | cons p ps ih =>
    cases ps with
    | nil =>
      simp only [jsIntercalate] at h
      exact ⟨p, by simp, h⟩
    | cons q qs =>
      rw [show jsIntercalate [] (p :: q :: qs) = p ++ [] ++ jsIntercalate [] (q :: qs)
          from rfl] at h
      simp only [List.append_nil, List.mem_append] at h
      rcases h with h | h
      · exact ⟨p, by simp, h⟩
      · obtain ⟨r, hr, hx⟩ := ih h
        exact ⟨r, by simp [hr], hx⟩

theorem mem_padStart2 (s : List Char) (x : Char) (h : x ∈ padStart2 s) :
    x = '0' ∨ x ∈ s := by
  unfold padStart2 at h
  split_ifs at h
  · rcases List.mem_append.mp h with h' | h'
    · exact Or.inl (List.eq_of_mem_replicate h')
    · exact Or.inr h'
  · exact Or.inr h

theorem mem_splitOnChar (c : Char) (l : List Char) (p : List Char)
    (hp : p ∈ splitOnChar c l) (x : Char) (hx : x ∈ p) : x ∈ l := by
  induction l generalizing p with
  | nil =>
    simp [splitOnChar] at hp
    subst hp
    cases hx
  | cons y rest ih =>
    by_cases hy : y = c
    · subst hy
      rw [splitOnChar_cons_self] at hp
      rcases List.mem_cons.mp hp with rfl | hp'
      · cases hx
      · exact List.mem_cons_of_mem _ (ih p hp' hx)
    · rw [splitOnChar_cons_ne c y rest hy] at hp
      rcases List.mem_cons.mp hp with rfl | hp'
      · rcases List.mem_cons.mp hx with rfl | hx'
        · simp
        · cases hh : splitOnChar c rest with
          | nil => exact absurd hh (splitOnChar_ne_nil c rest)
          | cons a t =>
            rw [hh] at hx'
            simp only [List.headD_cons] at hx'
            exact List.mem_cons_of_mem _ (ih a (by rw [hh]; simp) hx')
      · cases hh : splitOnChar c rest with
        | nil => exact absurd hh (splitOnChar_ne_nil c rest)
        | cons a t =>
          rw [hh] at hp'
          simp only [List.tail_cons] at hp'
          exact List.mem_cons_of_mem _ (ih p (by rw [hh]; exact List.mem_cons_of_mem _ hp') hx)

theorem natChars_ne_dash (n : Nat) : ∀ x ∈ natChars n, x ≠ '-' := by
  intro x hx heq
  have := natChars_digit n x hx
  have h45 : x.toNat = 45 := by rw [heq]; rfl
  omega

theorem padStart2_natChars (n : Nat) : padStart2 (natChars n) = pad2N n := by
  unfold padStart2 pad2N
  have hne := natChars_ne_nil n
  have h1 : 1 ≤ (natChars n).length := List.length_pos.mpr hne
  by_cases h10 : n < 10
  · have hle := natChars_len_le n 1 (by norm_num) (by omega)
    rw [if_pos (by omega), if_pos h10]
    rw [show 2 - (natChars n).length = 1 from by omega]
    simp
  · have hge := natChars_len_ge n 1 (by omega)
    rw [if_neg (by omega), if_neg h10]

theorem natChars_eq_pad4 (n : Nat) (h1 : 1000 ≤ n) (h2 : n ≤ 9999) :
    natChars n = pad4 n := by
  unfold pad4
  have hge := natChars_len_ge n 3 (by norm_num; omega)
  rw [show 4 - (natChars n).length = 0 from by omega]
  simp

theorem padStart2_pad4 (n : Nat) (h : n ≤ 9999) : padStart2 (pad4 n) = pad4 n := by
  have hl := pad4_len n h
  unfold padStart2
  rw [if_neg (by omega)]

theorem padStart2_pad2N (n : Nat) (h : n ≤ 99) : padStart2 (pad2N n) = pad2N n := by
  have hl := pad2N_len n h
  unfold padStart2
  rw [if_neg (by omega)]

theorem renderKey_split (k : DateKey) :
    splitOnChar '-' (renderKey k) = [natChars k.y, natChars k.m, natChars k.d] := by
  unfold renderKey
  rw [show natChars k.y ++ ['-'] ++ natChars k.m ++ ['-'] ++ natChars k.d
      = natChars k.y ++ '-' :: (natChars k.m ++ '-' :: natChars k.d) from by
    simp [List.append_assoc]]
  rw [splitOnChar_sep '-' _ _ (natChars_ne_dash k.y),
    splitOnChar_sep '-' _ _ (natChars_ne_dash k.m),
    splitOnChar_not_mem '-' _ (natChars_ne_dash k.d)]

theorem formatDate_renderKey (k : DateKey) (h1 : 1000 ≤ k.y) (h2 : k.y ≤ 9999)
    (hm : k.m ≤ 99) (hd : k.d ≤ 99) :
    formatDate (renderKey k) [] = yyyymmdd k := by
  unfold formatDate
  rw [renderKey_split]
  simp only [List.map]
  have hy4 : padStart2 (natChars k.y) = natChars k.y := by
    have := natChars_len_ge k.y 3 (by norm_num; omega)
    unfold padStart2
    rw [if_neg (by omega)]
  rw [hy4, natChars_eq_pad4 k.y h1 h2, padStart2_natChars, padStart2_natChars]
  unfold yyyymmdd
  simp [jsIntercalate, List.append_assoc]

theorem pad4_ne_dash (n : Nat) : ∀ x ∈ pad4 n, x ≠ '-' := by
  intro x hx
  unfold pad4 at hx
  rcases List.mem_append.mp hx with h | h
  · rw [List.eq_of_mem_replicate h]
    decide
  · exact natChars_ne_dash n x h

theorem pad2N_ne_dash (n : Nat) : ∀ x ∈ pad2N n, x ≠ '-' := by
  intro x hx
  unfold pad2N at hx
  split_ifs at hx
  · rcases List.mem_cons.mp hx with rfl | h
    · decide
    · exact natChars_ne_dash n x h
  · exact natChars_ne_dash n x hx

theorem isoDate_split (k : DateKey) :
    splitOnChar '-' (isoDate k) = [pad4 k.y, pad2N k.m, pad2N k.d] := by
  unfold isoDate
  rw [show pad4 k.y ++ ['-'] ++ pad2N k.m ++ ['-'] ++ pad2N k.d
      = pad4 k.y ++ '-' :: (pad2N k.m ++ '-' :: pad2N k.d) from by
    simp [List.append_assoc]]
  rw [splitOnChar_sep '-' _ _ (pad4_ne_dash k.y),
    splitOnChar_sep '-' _ _ (pad2N_ne_dash k.m),
    splitOnChar_not_mem '-' _ (pad2N_ne_dash k.d)]

theorem formatDate_isoDate (k : DateKey) (hy : k.y ≤ 9999) (hm : k.m ≤ 99)
    (hd : k.d ≤ 99) :
    formatDate (isoDate k) [] = yyyymmdd k := by
  unfold formatDate
  rw [isoDate_split]
  simp only [List.map]
  rw [padStart2_pad4 _ hy, padStart2_pad2N _ hm, padStart2_pad2N _ hd]
  unfold yyyymmdd
  simp [jsIntercalate, List.append_assoc]

/-- Adding 24h to a date's midnight timestamp and reading the date
back lands on the next day number. -/
theorem msToCivil_next (e : DateKey) :
    msToCivil (getTime e + 86400000) = civilFromDays (daysFromCivil e + 1) := by
  unfold msToCivil getTime
  congr 1
  have h1 : 86400000 * ((daysFromCivil e : Int) - (epochDays : Int)) + 86400000
      = 86400000 * ((daysFromCivil e : Int) - (epochDays : Int) + 1) := by ring
  rw [h1, Int.mul_fdiv_cancel_left _ (by norm_num)]
  unfold epochDays
  omega

theorem daysInMonth_pos (y m : Nat) : 1 ≤ daysInMonth y m := by
  unfold daysInMonth
  split_ifs <;> omega

theorem validDate_calendarSucc (k : DateKey) (h : validDate k) (hy : k.y ≤ 9998) :
    validDate (calendarSucc k) := by
  obtain ⟨Y, M, D⟩ := k
  obtain ⟨h1, h2, h3, h4, h5, h6⟩ := h
  simp only at h1 h2 h3 h4 h5 h6 hy
  unfold calendarSucc validDate
  split_ifs with hd hm
  · dsimp only at hd ⊢
    exact ⟨h1, h2, h3, h4, by omega, by omega⟩
  · dsimp only at hd hm ⊢
    refine ⟨h1, by omega, by omega, by omega, by omega, ?_⟩
    exact daysInMonth_pos Y (M + 1)
  · dsimp only at hd hm ⊢
    refine ⟨by omega, by omega, by omega, by omega, by omega, ?_⟩
    exact daysInMonth_pos (Y + 1) 1

theorem pad4_digits (n : Nat) : ∀ c ∈ pad4 n, 48 ≤ c.toNat ∧ c.toNat ≤ 57 := by
  intro c hc
  unfold pad4 at hc
  rcases List.mem_append.mp hc with h | h
  · rw [List.eq_of_mem_replicate h]
    decide
  · exact natChars_digit n c h

theorem pad2N_digits (n : Nat) : ∀ c ∈ pad2N n, 48 ≤ c.toNat ∧ c.toNat ≤ 57 := by
  intro c hc
  unfold pad2N at hc
  split_ifs at hc
  · rcases List.mem_cons.mp hc with rfl | h
    · decide
    · exact natChars_digit n c h
  · exact natChars_digit n c hc

theorem yyyymmdd_digits (k : DateKey) :
    ∀ c ∈ yyyymmdd k, 48 ≤ c.toNat ∧ c.toNat ≤ 57 := by
  intro c hc
  unfold yyyymmdd at hc
  rcases List.mem_append.mp hc with h | h
  · rcases List.mem_append.mp h with h | h
    · exact pad4_digits k.y c h
    · exact pad2N_digits k.m c h
  · exact pad2N_digits k.d c h

/-- Adding 24h to the end date's midnight timestamp and reading the ISO
date back is exactly the calendar successor of the end date. -/
theorem createEvent_end_date (e : DateKey) (he : validDate e)
    (hy : e.y ≤ 9998) :
    msToCivil (getTime e + 86400000) = calendarSucc e := by
  rw [msToCivil_next, ← daysFromCivil_calendarSucc e he,
    civilFromDays_daysFromCivil _ (validDate_calendarSucc e he hy)]

/-- C1: every serialized event's DTEND field is the range's end date
plus exactly one calendar day — the calendar successor, whose day
number is the end's day number plus one, so month and year boundaries
are crossed by true calendar arithmetic — rendered as an 8-digit
zero-padded YYYYMMDD digit string; and the DTEND string never equals
the YYYYMMDD rendering of the end date itself, so a one-day range
[D, D] serializes with DTSTART = D and DTEND = D + 1 day, never
DTEND = D. -/
theorem createEvent_exclusive_end (uid : List Char) (g : DateRange)
    (hs : validDate g.start) (hsy : 1000 ≤ g.start.y)
    (he : validDate g.stop) (hey : g.stop.y ≤ 9998) :
    createEvent uid g =
      "BEGIN:VEVENT\nSUMMARY:".data ++ ((g.message.getD "").data ++
        ("\nDTSTART;VALUE=DATE:".data ++ (yyyymmdd g.start ++
        ("\nDTEND;VALUE=DATE:".data ++ (yyyymmdd (calendarSucc g.stop) ++
        ("\nUID:".data ++ (uid ++ "\nEND:VEVENT".data))))))) ∧
    daysFromCivil (calendarSucc g.stop) = daysFromCivil g.stop + 1 ∧
    (yyyymmdd (calendarSucc g.stop)).length = 8 ∧
    (∀ c ∈ yyyymmdd (calendarSucc g.stop), 48 ≤ c.toNat ∧ c.toNat ≤ 57) ∧
    yyyymmdd (calendarSucc g.stop) ≠ yyyymmdd g.stop := by
  have hsuccV := validDate_calendarSucc g.stop he hey
  have hsb : (calendarSucc g.stop).y ≤ 9999 ∧ (calendarSucc g.stop).m ≤ 99 ∧
      (calendarSucc g.stop).d ≤ 99 := by
    obtain ⟨_, h2, _, h4, _, h6⟩ := hsuccV
    have := daysInMonth_le31 (calendarSucc g.stop).y (calendarSucc g.stop).m
    exact ⟨h2, by omega, by omega⟩
  have hstb : g.start.y ≤ 9999 ∧ g.start.m ≤ 99 ∧ g.start.d ≤ 99 := by
    obtain ⟨_, h2, _, h4, _, h6⟩ := hs
    have := daysInMonth_le31 g.start.y g.start.m
    exact ⟨h2, by omega, by omega⟩
  have hstopb : g.stop.y ≤ 9999 ∧ g.stop.m ≤ 99 ∧ g.stop.d ≤ 99 := by
    obtain ⟨_, h2, _, h4, _, h6⟩ := he
    have := daysInMonth_le31 g.stop.y g.stop.m
    exact ⟨h2, by omega, by omega⟩
  refine ⟨?_, daysFromCivil_calendarSucc g.stop he,
    yyyymmdd_len _ hsb.1 hsb.2.1 hsb.2.2, yyyymmdd_digits _, ?_⟩
  · rw [createEvent_eq, createEvent_end_date g.stop he hey,
      formatDate_renderKey g.start hsy hstb.1 hstb.2.1 hstb.2.2,
      formatDate_isoDate _ hsb.1 hsb.2.1 hsb.2.2]
  · intro hcontra
    have heq := yyyymmdd_inj _ _ hsb.1 hsb.2.1 hsb.2.2
      hstopb.1 hstopb.2.1 hstopb.2.2 hcontra
    have hdc := daysFromCivil_calendarSucc g.stop he
    rw [heq] at hdc
    omega

/-- A one-day range ending 2026-01-31 (month boundary). -/
def exRange : DateRange :=
  ⟨⟨2026, 1, 31⟩, ⟨2026, 1, 31⟩, some "Выходной"⟩

/-- C1 witness: the theorem applied to the one-day range
[2026-01-31, 2026-01-31]; the calendar successor crosses the month
boundary to 2026-02-01 and renders as 20260201. -/
theorem createEvent_exclusive_end_witness :
    (createEvent "a0".data exRange =
      "BEGIN:VEVENT\nSUMMARY:".data ++ ((exRange.message.getD "").data ++
        ("\nDTSTART;VALUE=DATE:".data ++ (yyyymmdd exRange.start ++
        ("\nDTEND;VALUE=DATE:".data ++ (yyyymmdd (calendarSucc exRange.stop) ++
        ("\nUID:".data ++ ("a0".data ++ "\nEND:VEVENT".data))))))) ∧
     daysFromCivil (calendarSucc exRange.stop) = daysFromCivil exRange.stop + 1 ∧
     (yyyymmdd (calendarSucc exRange.stop)).length = 8 ∧
     (∀ c ∈ yyyymmdd (calendarSucc exRange.stop), 48 ≤ c.toNat ∧ c.toNat ≤ 57) ∧
     yyyymmdd (calendarSucc exRange.stop) ≠ yyyymmdd exRange.stop) ∧
    calendarSucc exRange.stop = ⟨2026, 2, 1⟩ ∧
    yyyymmdd (calendarSucc exRange.stop) = "20260201".data ∧
    yyyymmdd exRange.start = "20260131".data :=
  ⟨createEvent_exclusive_end "a0".data exRange (by decide) (by decide)
    (by decide) (by decide), by decide, by decide, by decide⟩

/-! ### Line structure of the emitted document -/

theorem lookup_mem (l : AnnotationMap) (k : DateKey) (a : Annotation)
    (h : l.lookup k = some a) : (k, a) ∈ l := by
  induction l with
  | nil => simp [List.lookup] at h
  | cons p ps ih =>
    obtain ⟨k1, b1⟩ := p
    by_cases hk : k = k1
    · subst hk
      simp [List.lookup] at h
      simp [h]
    · have hbeq : (k == k1) = false := by simp [hk]
      rw [List.lookup, hbeq] at h
      exact List.mem_cons_of_mem _ (ih h)

/-- Every message carried by a group produced by `makeGroups` is either
absent or the message of some annotation looked up in the map. -/
theorem makeGroups_message (m : AnnotationMap) (Q : Option String → Prop)
    (hnone : Q none)
    (hsome : ∀ k a, m.lookup k = some a → Q (some a.message)) :
    ∀ g ∈ makeGroups m, Q g.message := by
  unfold makeGroups
  suffices h : ∀ (l : List DateKey) (acc : List DateRange),
      (∀ g ∈ acc, Q g.message) →
      ∀ g ∈ l.foldl (mergeStep m) acc, Q g.message by
    intro g hg
    rw [List.mem_reverse] at hg
    exact h (sortedDates m) [] (by simp) g hg
  intro l
  induction l with
  | nil =>
    intro acc hacc
    simpa using hacc
  | cons e t ih =>
    intro acc hacc
    rw [List.foldl_cons]
    refine ih (mergeStep m acc e) ?_
    have hnew : Q ((m.lookup e).map Annotation.message) := by
      cases hl : m.lookup e with
      | none => simpa [hl] using hnone
      | some a => simpa [hl] using hsome e a hl
    intro g hg
    cases acc with
    | nil =>
      rw [show mergeStep m [] e = [⟨e, e, (m.lookup e).map Annotation.message⟩]
        from rfl] at hg
      rcases List.mem_singleton.mp hg with rfl
      exact hnew
    | cons last rest =>
      rw [show mergeStep m (last :: rest) e =
          if getTime last.stop ≠ 0 ∧
              (m.lookup e).map Annotation.message = last.message ∧
              getTime e - getTime last.stop = 86400000 then
            ⟨last.start, e, last.message⟩ :: rest
          else ⟨e, e, (m.lookup e).map Annotation.message⟩ :: last :: rest
        from rfl] at hg
      split_ifs at hg
      · rcases List.mem_cons.mp hg with rfl | hg'
        · exact hacc last (by simp)
        · exact hacc g (List.mem_cons_of_mem _ hg')
      · rcases List.mem_cons.mp hg with rfl | hg'
        · exact hnew
        · exact hacc g hg'

theorem splitOnChar_append (c : Char) (xs ys : List Char) :
    splitOnChar c (xs ++ c :: ys) = splitOnChar c xs ++ splitOnChar c ys := by
  induction xs with
  | nil => simp [splitOnChar]
  | cons x xs ih =>
    by_cases hx : x = c
    · subst hx
      rw [List.cons_append, splitOnChar_cons_self, splitOnChar_cons_self, ih]
      rfl
    · rw [List.cons_append, splitOnChar_cons_ne c x _ hx,
        splitOnChar_cons_ne c x xs hx, ih]
      obtain ⟨p, ps, hps⟩ : ∃ p ps, splitOnChar c xs = p :: ps := by
        cases h : splitOnChar c xs with
        | nil => exact absurd h (splitOnChar_ne_nil c xs)
        | cons p ps => exact ⟨p, ps, rfl⟩
      rw [hps]
      simp

/-- Splitting a newline-joined list of pieces on the newline yields the
concatenation of the splits of the pieces. -/
theorem splitOnChar_intercalate (c : Char) (ps : List (List Char))
    (h : ps ≠ []) :
    splitOnChar c (jsIntercalate [c] ps)
      = (ps.map (splitOnChar c)).flatten := by
  induction ps with
  | nil => exact absurd rfl h
  | cons p qs ih =>
    cases qs with
    | nil => simp [jsIntercalate]
    | cons q rs =>
      rw [show jsIntercalate [c] (p :: q :: rs)
          = p ++ c :: jsIntercalate [c] (q :: rs) from by
        rw [show jsIntercalate [c] (p :: q :: rs)
            = p ++ [c] ++ jsIntercalate [c] (q :: rs) from rfl,
          List.append_assoc]
        rfl]
      rw [splitOnChar_append, ih (by simp)]
      simp

theorem no_nl_append (a b : List Char) (ha : ∀ x ∈ a, x ≠ '\n')
    (hb : ∀ x ∈ b, x ≠ '\n') : ∀ x ∈ a ++ b, x ≠ '\n' := by
  intro x hx
  rcases List.mem_append.mp hx with h | h
  · exact ha x h
  · exact hb x h

theorem mem_formatDate (date : List Char) (x : Char)
    (h : x ∈ formatDate date []) : x = '0' ∨ x ∈ date := by
  unfold formatDate at h
  obtain ⟨p, hp, hx⟩ := mem_jsIntercalate_nil _ x h
  rw [List.mem_map] at hp
  obtain ⟨s, hs, rfl⟩ := hp
  rcases mem_padStart2 s x hx with h0 | hxs
  · exact Or.inl h0
  · exact Or.inr (mem_splitOnChar '-' date s hs x hxs)

theorem digit_ne_nl (c : Char) (h : 48 ≤ c.toNat ∧ c.toNat ≤ 57) :
    c ≠ '\n' := by
  intro hc
  rw [hc] at h
  revert h
  decide

theorem formatDate_renderKey_no_nl (k : DateKey) :
    ∀ x ∈ formatDate (renderKey k) [], x ≠ '\n' := by
  intro x hx
  rcases mem_formatDate _ x hx with rfl | hxd
  · decide
  · unfold renderKey at hxd
    rcases List.mem_append.mp hxd with h | h
    · rcases List.mem_append.mp h with h' | h'
      · rcases List.mem_append.mp h' with h'' | h''
        · rcases List.mem_append.mp h'' with h3 | h3
          · exact digit_ne_nl x (natChars_digit k.y x h3)
          · rw [List.mem_singleton.mp h3]
            decide
        · exact digit_ne_nl x (natChars_digit k.m x h'')
      · rw [List.mem_singleton.mp h']
        decide
    · exact digit_ne_nl x (natChars_digit k.d x h)

theorem formatDate_isoDate_no_nl (k : DateKey) :
    ∀ x ∈ formatDate (isoDate k) [], x ≠ '\n' := by
  intro x hx
  rcases mem_formatDate _ x hx with rfl | hxd
  · decide
  · unfold isoDate at hxd
    rcases List.mem_append.mp hxd with h | h
    · rcases List.mem_append.mp h with h' | h'
      · rcases List.mem_append.mp h' with h'' | h''
        · rcases List.mem_append.mp h'' with h3 | h3
          · exact digit_ne_nl x (pad4_digits k.y x h3)
          · rw [List.mem_singleton.mp h3]
            decide
        · exact digit_ne_nl x (pad2N_digits k.m x h'')
      · rw [List.mem_singleton.mp h']
        decide
    · exact digit_ne_nl x (pad2N_digits k.d x h)

theorem makeId_mem_alphabet (entropy : Nat → Fin 16) (call : Nat) :
    ∀ x ∈ makeId entropy call, x ∈ uidAlphabet := by
  intro x hx
  unfold makeId at hx
  rw [List.mem_map] at hx
  obtain ⟨i, _, rfl⟩ := hx
  exact List.get_mem _ _ _

theorem makeId_no_nl (entropy : Nat → Fin 16) (call : Nat) :
    ∀ x ∈ makeId entropy call, x ≠ '\n' := by
  intro x hx
  have := makeId_mem_alphabet entropy call x hx
  revert this
  have : ∀ y ∈ uidAlphabet, y ≠ '\n' := by decide
  intro h
  exact this x h

theorem mem_mapIdx_ex {α β : Type} (f : Nat → α → β) (l : List α) (b : β)
    (h : b ∈ l.mapIdx f) : ∃ i a, a ∈ l ∧ b = f i a := by
  induction l generalizing f with
  | nil => simp at h
  | cons x xs ih =>
    rw [List.mapIdx_cons] at h
    rcases List.mem_cons.mp h with rfl | h'
    · exact ⟨0, x, by simp, rfl⟩
    · obtain ⟨i, a, ha, rfl⟩ := ih (fun i a => f (i + 1) a) h'
      exact ⟨i + 1, a, by simp [ha], rfl⟩

theorem head_ok (c : Char) (l : List Char) (hc : isJsWs c = false) :
    ∃ ch rest, (c :: l) = ch :: rest ∧ isJsWs ch = false :=
  ⟨c, l, rfl, hc⟩

/-- The six lines of an event block, given newline-free interpolated
values. -/
theorem eventBlock_lines (msg s8 e8 u : List Char)
    (hm : ∀ x ∈ msg, x ≠ '\n') (hs : ∀ x ∈ s8, x ≠ '\n')
    (he : ∀ x ∈ e8, x ≠ '\n') (hu : ∀ x ∈ u, x ≠ '\n') :
    splitOnChar '\n' ("BEGIN:VEVENT\nSUMMARY:".data ++ (msg ++
      ("\nDTSTART;VALUE=DATE:".data ++ (s8 ++ ("\nDTEND;VALUE=DATE:".data ++
      (e8 ++ ("\nUID:".data ++ (u ++ "\nEND:VEVENT".data)))))))) =
    ["BEGIN:VEVENT".data, "SUMMARY:".data ++ msg,
     "DTSTART;VALUE=DATE:".data ++ s8, "DTEND;VALUE=DATE:".data ++ e8,
     "UID:".data ++ u, "END:VEVENT".data] := by
  have hshape : "BEGIN:VEVENT\nSUMMARY:".data ++ (msg ++
      ("\nDTSTART;VALUE=DATE:".data ++ (s8 ++ ("\nDTEND;VALUE=DATE:".data ++
      (e8 ++ ("\nUID:".data ++ (u ++ "\nEND:VEVENT".data))))))) =
      "BEGIN:VEVENT".data ++ '\n' :: (("SUMMARY:".data ++ msg) ++ '\n' ::
        (("DTSTART;VALUE=DATE:".data ++ s8) ++ '\n' ::
        (("DTEND;VALUE=DATE:".data ++ e8) ++ '\n' ::
        (("UID:".data ++ u) ++ '\n' :: "END:VEVENT".data)))) := by
    simp only [List.append_assoc, List.cons_append, List.singleton_append,
      List.nil_append]
  rw [hshape,
    splitOnChar_sep '\n' ("BEGIN:VEVENT".data) _ (by decide),
    splitOnChar_sep '\n' ("SUMMARY:".data ++ msg) _
      (no_nl_append _ _ (by decide) hm),
    splitOnChar_sep '\n' ("DTSTART;VALUE=DATE:".data ++ s8) _
      (no_nl_append _ _ (by decide) hs),
    splitOnChar_sep '\n' ("DTEND;VALUE=DATE:".data ++ e8) _
      (no_nl_append _ _ (by decide) he),
    splitOnChar_sep '\n' ("UID:".data ++ u) _
      (no_nl_append _ _ (by decide) hu),
    splitOnChar_not_mem '\n' ("END:VEVENT".data) (by decide)]

/-- C9 (amended): the template helper does strip the chunks'
indentation artifacts and leading blank lines, so whenever every
message stored in the map is newline-free, every line of the emitted
document is nonempty and starts with a non-whitespace character, and
the document's first line is BEGIN:VCALENDAR; but the guarantee does
not extend to every possible message value — a message containing a
newline followed by spaces is interpolated verbatim and produces a
line with leading whitespace. -/
theorem document_no_leading_ws (entropy : Nat → Fin 16) (m : AnnotationMap)
    (hmsg : ∀ ka ∈ m, ∀ x ∈ (Prod.snd ka).message.data, x ≠ '\n') :
    (∀ p ∈ docLines (buildDocument entropy m),
      ∃ c rest, p = c :: rest ∧ isJsWs c = false) ∧
    (docLines (buildDocument entropy m)).headD [] = "BEGIN:VCALENDAR".data := by
  have hsplit : docLines (buildDocument entropy m)
      = ((headerLines ++
          ((makeGroups m).mapIdx fun i g => createEvent (makeId entropy i) g) ++
          ["END:VCALENDAR".data]).map (splitOnChar '\n')).flatten := by
    unfold docLines buildDocument
    exact splitOnChar_intercalate '\n' _ (by simp [headerLines])
  constructor
  · intro p hp
    rw [hsplit, List.mem_flatten] at hp
    obtain ⟨s, hs, hps⟩ := hp
    rw [List.mem_map] at hs
    obtain ⟨piece, hpiece, rfl⟩ := hs
    rcases List.mem_append.mp hpiece with h1 | hF
    · rcases List.mem_append.mp h1 with hH | hX
      · simp only [headerLines, List.mem_cons, List.not_mem_nil, or_false] at hH
        rcases hH with rfl | rfl | rfl | rfl | rfl <;>
          rw [splitOnChar_not_mem '\n' _ (by decide), List.mem_singleton] at hps <;>
          subst hps <;>
          exact head_ok _ _ (by decide)
      · obtain ⟨i, g, hg, rfl⟩ := mem_mapIdx_ex _ _ piece hX
        have hmsgG : ∀ x ∈ (g.message.getD "").data, x ≠ '\n' := by
          refine makeGroups_message m
            (fun o => ∀ x ∈ (o.getD "").data, x ≠ '\n') ?_ ?_ g hg
          · intro x hx
            simp only [Option.getD_none] at hx
            cases hx
          · intro k a hk x hx
            simp only [Option.getD_some] at hx
            exact hmsg (k, a) (lookup_mem m k a hk) x hx
        rw [createEvent_eq, eventBlock_lines _ _ _ _ hmsgG
            (formatDate_renderKey_no_nl g.start)
            (formatDate_isoDate_no_nl _)
            (makeId_no_nl entropy i)] at hps
        simp only [List.mem_cons, List.not_mem_nil, or_false] at hps
        rcases hps with rfl | rfl | rfl | rfl | rfl | rfl <;>
          exact head_ok _ _ (by decide)
    · rw [List.mem_singleton] at hF
      subst hF
      rw [splitOnChar_not_mem '\n' _ (by decide), List.mem_singleton] at hps
      subst hps
      exact head_ok _ _ (by decide)
  · rw [hsplit]
    rw [show headerLines ++
        ((makeGroups m).mapIdx fun i g => createEvent (makeId entropy i) g) ++
        ["END:VCALENDAR".data]
      = "BEGIN:VCALENDAR".data :: (headerLines.tail ++
        ((makeGroups m).mapIdx fun i g => createEvent (makeId entropy i) g) ++
        ["END:VCALENDAR".data]) from rfl]
    rw [List.map_cons, List.flatten_cons,
      splitOnChar_not_mem '\n' _ (by decide)]
    rfl

/-- A one-annotation map whose message is newline-free. -/
def okMap : AnnotationMap :=
  [(⟨2026, 1, 1⟩, ⟨"Выходной", true, false⟩)]

/-- C9 witness: the amended theorem applied to a one-annotation map
with a newline-free message. -/
theorem document_no_leading_ws_witness :
    (∀ p ∈ docLines (buildDocument (fun _ => (0 : Fin 16)) okMap),
      ∃ c rest, p = c :: rest ∧ isJsWs c = false) ∧
    (docLines (buildDocument (fun _ => (0 : Fin 16)) okMap)).headD []
      = "BEGIN:VCALENDAR".data :=
  document_no_leading_ws (fun _ => (0 : Fin 16)) okMap (by decide)

/-- A map whose single message embeds a newline followed by spaces. -/
def badMap : AnnotationMap :=
  [(⟨2026, 1, 1⟩, ⟨"a\n  b", true, false⟩)]

/-- C9 counterexample: with the message "a\n  b" the emitted document
contains the line "  b", which begins with whitespace, refuting the
claim for every possible message value. -/
theorem document_leading_ws_counterexample :
    (' ' :: ' ' :: ['b']) ∈ docLines (buildDocument (fun _ => (0 : Fin 16)) badMap)
    ∧ isJsWs ' ' = true := by
  refine ⟨?_, by decide⟩
  decide
